import Mathlib

/-!
Verification of the `armtastic` memory-pool allocator (`memory_pool.hpp`).

The development is a shallow embedding of the C++ source:
machine `u32` values are `Nat` with explicit `% 2^32` where wraparound
matters, pointers are byte addresses (`Nat`), memory is an explicit
`Nat → Nat` map from word-aligned byte addresses to the 32-bit word
stored there, and fallible allocation returns `Option`.
-/

/-- Word written at byte address `a`: pointwise-updated memory map. -/
def wr (m : Nat → Nat) (a v : Nat) : Nat → Nat :=
  fun a' => if a' = a then v else m a'

/-- Two to the 32, the modulus of `u32` arithmetic. -/
def U32 : Nat := 4294967296

/-- Value of the `u32` expression `x - 1` (wraps around at `x = 0`). -/
def u32sub1 (x : Nat) : Nat := (x + (U32 - 1)) % U32

/-- Value of the `u32`/two's-complement expression `-x` on a 32-bit pattern. -/
def u32neg (x : Nat) : Nat := (U32 - x % U32) % U32

/-- Arithmetic (sign-propagating) right shift by 31 of a 32-bit pattern:
the result is all-ones exactly when the sign bit (bit 31) is set. -/
def asr31 (p : Nat) : Nat := if p < 2 ^ 31 then 0 else U32 - 1

/-- Embedding of `pool_set::bits_set` (SWAR population count).
All intermediate values stay below `2^32` for inputs below `2^32`,
so no wraparound reduction is needed: the one `u32` subtraction
`x -= ((x >> 1) & 0x55555555)` cannot underflow because the subtrahend
is at most `x >> 1 ≤ x`. -/
def bits_set (x : Nat) : Nat :=
  let x := x - ((x >>> 1) &&& 0x55555555)
  let x := ((x >>> 2) &&& 0x33333333) + (x &&& 0x33333333)
  let x := ((x >>> 4) + x) &&& 0x0f0f0f0f
  let x := x + (x >>> 8)
  let x := x + (x >>> 16)
  x &&& 0x3f

/-- Embedding of `pool_set::integer_log`.
The C++ keeps `l` in a signed 32-bit register: `l = x & (x - 1)`,
then `l |= -l; l >>= 31` leaves the all-ones pattern (s32 value -1)
exactly when `l` was nonzero; the final `bits_set(x >> 1) - l` is a
`u32` subtraction, modelled as addition of the two's complement. -/
def integer_log (x : Nat) : Nat :=
  let l := x &&& u32sub1 x
  let l := l ||| u32neg l
  let l := asr31 l
  let x := x ||| (x >>> 1)
  let x := x ||| (x >>> 2)
  let x := x ||| (x >>> 4)
  let x := x ||| (x >>> 8)
  let x := x ||| (x >>> 16)
  (bits_set (x >>> 1) + u32neg l) % U32

/-- The five-stage bit smear of `integer_log`, taken out as a helper
for the proofs; `integer_log_eq_smear` below ties it to `integer_log`
definitionally. -/
def smear (x : Nat) : Nat :=
  let x := x ||| (x >>> 1)
  let x := x ||| (x >>> 2)
  let x := x ||| (x >>> 4)
  let x := x ||| (x >>> 8)
  x ||| (x >>> 16)

/-- Embedding of `pool_set`'s size rounding `size = (size + 3) & ~3`
on a 32-bit `size_t` (the source reinterprets pointers as `u32`,
fixing the machine word at 32 bits): `~3 = 0xfffffffc`. -/
def round4 (s : Nat) : Nat := ((s + 3) % U32) &&& 0xfffffffc

/-- Embedding of `u32 pool_index = integer_log(size) - 2` (`u32`
subtraction, wrapping when `integer_log size < 2`). -/
def pool_index_of (size : Nat) : Nat := (integer_log size + u32neg 2) % U32

/-- Specification-side definition, following the spec's words:
`ceil_log2(x)` for `x ≥ 1` is the smallest `k` with `2^k ≥ x`.
`Nat.clog 2` is exactly that; the claim theorem re-proves the
"smallest k" characterization so nothing rests on this choice. -/
def ceil_log2 (x : Nat) : Nat := Nat.clog 2 x

/-- Specification-side definition: the null sentinel terminating the
intrusive free list (the source's null pointer, address 0). -/
def sentinel : Nat := 0

/-- State of a `block_pool` (source fields `block_count`, `free_count`,
`next_block`, `buffer`, `end_buffer`), together with the contents
`mem` of the machine memory holding the intrusive free list: `mem a`
is the 32-bit word stored at byte address `a`. -/
structure block_pool where
  block_count : Nat
  free_count : Nat
  next_block : Nat
  buffer : Nat
  end_buffer : Nat
  mem : Nat → Nat

/-- Embedding of `block_pool::init`. `base` is the address returned by
the backing `new u8[block_size * block_count]` and `mem0` the (arbitrary)
prior contents of memory. The loop writes, for each `block` below
`block_count - 1`, the address of block `block + 1` into the first word
of block `block`: `buffer[block * (block_size >> 2)] = &buffer[(block+1) * (block_size >> 2)]`,
i.e. byte address `base + 4 * (block * (block_size >>> 2))` receives
`base + 4 * ((block + 1) * (block_size >>> 2))`. (The model keeps `Nat`
loop bounds: as in every use in the source, `block_count ≥ 1`.) -/
def block_pool.init (block_size block_count base : Nat) (mem0 : Nat → Nat) : block_pool :=
  { block_count := block_count
    free_count := block_count
    next_block := base
    buffer := base
    end_buffer := base + block_size * block_count
    mem := (List.range (block_count - 1)).foldl
      (fun m block =>
        wr m (base + 4 * (block * (block_size >>> 2)))
             (base + 4 * ((block + 1) * (block_size >>> 2))))
      mem0 }

/-- Embedding of `block_pool::alloc`: `free_count` is `u32`, so the
source guard `free_count <= 0` means `free_count = 0`; otherwise the
head block is returned and the stored link becomes the new head. -/
def block_pool.alloc (s : block_pool) : Option Nat × block_pool :=
  if s.free_count = 0 then (none, s)
  else (some s.next_block,
        { s with next_block := s.mem s.next_block,
                 free_count := s.free_count - 1 })

/-- Embedding of `block_pool::dealloc`: the current head is written into
the first word of `p`, which becomes the new head. (The debug-only
`assertion(free_count < block_count)` aborts and is not part of the
state transition.) -/
def block_pool.dealloc (s : block_pool) (p : Nat) : block_pool :=
  { s with mem := wr s.mem p s.next_block,
           next_block := p,
           free_count := s.free_count + 1 }

/-- Embedding of `block_pool::in_range`: `p >= buffer && p < end_buffer`. -/
def block_pool.in_range (s : block_pool) (p : Nat) : Bool :=
  decide (s.buffer ≤ p ∧ p < s.end_buffer)

/-- Iterated `block_pool::alloc`: the results of `n` consecutive calls,
first call's result first, together with the final state. -/
def block_pool.allocs (s : block_pool) : Nat → List (Option Nat) × block_pool
  | 0 => ([], s)
  | n + 1 =>
    let r := s.alloc
    let rest := block_pool.allocs r.2 n
    (r.1 :: rest.1, rest.2)

/-- Iterated `block_pool::dealloc` over a list of pointers, first
pointer freed first. -/
def block_pool.deallocs (s : block_pool) (ps : List Nat) : block_pool :=
  ps.foldl block_pool.dealloc s

/-- State of the `pool_set` singleton: the `pool_count` pools in index
order (block sizes `4 * 2^i` when built by `pool_set::init`). -/
structure pool_set where
  pools : List block_pool

/-- Embedding of `pool_set::alloc`: round the size up to a multiple of
four, select `pool_index = integer_log(size) - 2`, and delegate when the
index is in bounds; the initial `p = 0` (here `none`) is returned
otherwise. -/
def pool_set.alloc (ps : pool_set) (size : Nat) : Option Nat × pool_set :=
  let size := round4 size
  let pool_index := pool_index_of size
  if h : pool_index < ps.pools.length then
    let r := (ps.pools.get ⟨pool_index, h⟩).alloc
    (r.1, ⟨ps.pools.set pool_index r.2⟩)
  else (none, ps)

/-- Embedding of the probe loop of `pool_set::dealloc`: the first pool
whose `in_range` claims `p` receives the deallocation and the loop
reports success; pools before it are untouched. -/
def pools_dealloc : List block_pool → Nat → Bool × List block_pool
  | [], _ => (false, [])
  | pool :: rest, p =>
    if pool.in_range p then (true, pool.dealloc p :: rest)
    else
      let r := pools_dealloc rest p
      (r.1, pool :: r.2)

/-- Embedding of `pool_set::dealloc`. -/
def pool_set.dealloc (ps : pool_set) (p : Nat) : Bool × pool_set :=
  let r := pools_dealloc ps.pools p
  (r.1, ⟨r.2⟩)

theorem testBit_or_shr (x k i : Nat) :
    (x ||| (x >>> k)).testBit i = (x.testBit i || x.testBit (i + k)) := by
  simp [Nat.testBit_or, Nat.testBit_shiftRight, Nat.add_comm]

theorem testBit_or_shr_stage {x y : Nat} (c : Nat)
    (h : ∀ j, y.testBit j = true ↔ ∃ d, d < c ∧ x.testBit (j + d) = true) (i : Nat) :
    (y ||| (y >>> c)).testBit i = true ↔ ∃ d, d < 2 * c ∧ x.testBit (i + d) = true := by
  rw [testBit_or_shr, Bool.or_eq_true, h i, h (i + c)]
  constructor
  · rintro (⟨d, hd, ht⟩ | ⟨d, hd, ht⟩)
    · exact ⟨d, by omega, ht⟩
    · exact ⟨c + d, by omega, by rwa [← Nat.add_assoc]⟩
  · rintro ⟨d, hd, ht⟩
    rcases Nat.lt_or_ge d c with h' | h'
    · exact Or.inl ⟨d, h', ht⟩
    · exact Or.inr ⟨d - c, by omega, by rw [show i + c + (d - c) = i + d by omega]; exact ht⟩

theorem smear_testBit (x i : Nat) :
    (smear x).testBit i = true ↔ ∃ d, d < 32 ∧ x.testBit (i + d) = true := by
  have h0 : ∀ j, x.testBit j = true ↔ ∃ d, d < 1 ∧ x.testBit (j + d) = true := by
    intro j
    constructor
    · intro ht; exact ⟨0, Nat.zero_lt_one, by rwa [Nat.add_zero]⟩
    · rintro ⟨d, hd, ht⟩
      interval_cases d
      rwa [Nat.add_zero] at ht
  have h1 := fun j => testBit_or_shr_stage 1 h0 j
  have h2 := fun j => testBit_or_shr_stage 2 h1 j
  have h4 := fun j => testBit_or_shr_stage 4 h2 j
  have h8 := fun j => testBit_or_shr_stage 8 h4 j
  have h16 := fun j => testBit_or_shr_stage 16 h8 j
  exact h16 i

theorem testBit_of_interval {p m : Nat} (h1 : 2 ^ m ≤ p) (h2 : p < 2 ^ (m + 1)) :
    p.testBit m = true := by
  rw [Nat.testBit_to_div_mod]
  have hd : p / 2 ^ m = 1 := by
    apply Nat.div_eq_of_lt_le
    · simpa using h1
    · rw [Nat.pow_succ] at h2; omega
  simp [hd]

theorem smear_eq {x : Nat} (h1 : 1 ≤ x) (h2 : x < 2 ^ 32) :
    smear x = 2 ^ (Nat.log2 x + 1) - 1 := by
  have hm : Nat.log2 x < 32 := (Nat.log2_lt (by omega)).2 h2
  have hlo : 2 ^ Nat.log2 x ≤ x := Nat.log2_self_le (by omega)
  have hhi : x < 2 ^ (Nat.log2 x + 1) := Nat.lt_log2_self
  apply Nat.eq_of_testBit_eq
  intro i
  rw [Nat.testBit_two_pow_sub_one, Bool.eq_iff_iff, decide_eq_true_eq, smear_testBit]
  constructor
  · rintro ⟨d, hd, ht⟩
    have hge := Nat.testBit_implies_ge ht
    have hlt : 2 ^ (i + d) < 2 ^ (Nat.log2 x + 1) := Nat.lt_of_le_of_lt hge hhi
    have := (Nat.pow_lt_pow_iff_right (a := 2) (by omega)).1 hlt
    omega
  · intro hi
    refine ⟨Nat.log2 x - i, by omega, ?_⟩
    rw [show i + (Nat.log2 x - i) = Nat.log2 x by omega]
    exact testBit_of_interval hlo hhi

theorem land_pred_eq_zero_iff {x m : Nat} (h1 : 2 ^ m ≤ x) (h2 : x < 2 ^ (m + 1)) :
    x &&& (x - 1) = 0 ↔ x = 2 ^ m := by
  constructor
  · intro h
    by_contra hne
    have hgt : 2 ^ m < x := Nat.lt_of_le_of_ne h1 (fun e => hne e.symm)
    have hb1 : x.testBit m = true := testBit_of_interval h1 h2
    have hb2 : (x - 1).testBit m = true := by
      apply testBit_of_interval <;> omega
    have hb : (x &&& (x - 1)).testBit m = true := by
      rw [Nat.testBit_and, hb1, hb2]; rfl
    rw [h, Nat.zero_testBit] at hb
    exact Bool.false_ne_true hb
  · intro h
    subst h
    apply Nat.eq_of_testBit_eq
    intro i
    rw [Nat.testBit_and, Nat.testBit_two_pow_sub_one, Nat.zero_testBit, Nat.testBit_two_pow]
    rcases eq_or_ne m i with h | h
    · subst h; simp
    · simp [h]

theorem bits_set_pred_pow : ∀ m, m < 33 → bits_set (2 ^ m - 1) = m := by decide

theorem integer_log_eq_pieces (x : Nat) :
    integer_log x =
      (bits_set ((smear x) >>> 1) +
        u32neg (asr31 ((x &&& u32sub1 x) ||| u32neg (x &&& u32sub1 x)))) % U32 := rfl

theorem integer_log_eq_log2 {x : Nat} (h1 : 1 ≤ x) (h2 : x < 2 ^ 32) :
    integer_log x = Nat.log2 x + (if x &&& (x - 1) = 0 then 0 else 1) := by
  have hm : Nat.log2 x < 32 := (Nat.log2_lt (by omega)).2 h2
  have hsub : u32sub1 x = x - 1 := by
    unfold u32sub1 U32
    omega
  have hsm : (smear x) >>> 1 = 2 ^ Nat.log2 x - 1 := by
    rw [smear_eq h1 h2, Nat.shiftRight_one, Nat.pow_succ]
    omega
  have hbs : bits_set ((smear x) >>> 1) = Nat.log2 x := by
    rw [hsm]; exact bits_set_pred_pow _ (by omega)
  rw [integer_log_eq_pieces, hsub, hbs]
  by_cases h : x &&& (x - 1) = 0
  · rw [if_pos h, h]
    have hz : u32neg 0 = 0 := by unfold u32neg U32; decide
    rw [hz, Nat.or_zero]
    unfold asr31
    rw [if_pos (by omega), hz, Nat.add_zero, Nat.mod_eq_of_lt]
    unfold U32; omega
  · rw [if_neg h]
    have hl1 : 1 ≤ x &&& (x - 1) := Nat.one_le_iff_ne_zero.2 h
    have hl2 : x &&& (x - 1) < U32 := by
      have := Nat.and_le_left (n := x) (m := x - 1)
      unfold U32; omega
    have hneg : u32neg (x &&& (x - 1)) = U32 - (x &&& (x - 1)) := by
      unfold u32neg
      rw [Nat.mod_eq_of_lt hl2, Nat.mod_eq_of_lt (by omega)]
    have hor : ¬ ((x &&& (x - 1)) ||| u32neg (x &&& (x - 1))) < 2 ^ 31 := by
      intro hlt
      have hb : (((x &&& (x - 1)) ||| u32neg (x &&& (x - 1)))).testBit 31 = true := by
        rw [Nat.testBit_or]
        rcases Nat.lt_or_ge (x &&& (x - 1)) (2 ^ 31) with hc | hc
        · have hu : (u32neg (x &&& (x - 1))).testBit 31 = true := by
            apply testBit_of_interval (m := 31) <;> rw [hneg] <;> unfold U32 at * <;> omega
          rw [hu, Bool.or_true]
        · have hu : (x &&& (x - 1)).testBit 31 = true := by
            apply testBit_of_interval (m := 31)
            · exact hc
            · unfold U32 at hl2; omega
          rw [hu, Bool.true_or]
      have := Nat.testBit_implies_ge hb
      omega
    unfold asr31
    rw [if_neg hor]
    have ho : u32neg (U32 - 1) = 1 := by unfold u32neg U32; decide
    rw [ho, Nat.mod_eq_of_lt]
    unfold U32; omega

theorem integer_log_eq_clog {x : Nat} (h1 : 1 ≤ x) (h2 : x < 2 ^ 32) :
    integer_log x = Nat.clog 2 x := by
  have hlo : 2 ^ Nat.log2 x ≤ x := Nat.log2_self_le (by omega)
  have hhi : x < 2 ^ (Nat.log2 x + 1) := Nat.lt_log2_self
  rw [integer_log_eq_log2 h1 h2]
  rcases eq_or_ne x (2 ^ Nat.log2 x) with he | he
  · rw [if_pos ((land_pred_eq_zero_iff hlo hhi).2 he), Nat.add_zero]
    have hle : Nat.clog 2 x ≤ Nat.log2 x :=
      (Nat.le_pow_iff_clog_le (by omega)).1 (Nat.le_of_eq he)
    have hp := Nat.le_pow_clog (b := 2) (by omega) x
    have hge : Nat.log2 x ≤ Nat.clog 2 x :=
      (Nat.pow_le_pow_iff_right (a := 2) (by omega)).1
        (Nat.le_trans (Nat.le_of_eq he.symm) hp)
    omega
  · rw [if_neg (fun hh => he ((land_pred_eq_zero_iff hlo hhi).1 hh))]
    have hle : Nat.clog 2 x ≤ Nat.log2 x + 1 :=
      (Nat.le_pow_iff_clog_le (by omega)).1 (Nat.le_of_lt hhi)
    have hge : ¬ Nat.clog 2 x ≤ Nat.log2 x := by
      intro hc
      exact he (Nat.le_antisymm ((Nat.le_pow_iff_clog_le (by omega)).2 hc) hlo)
    omega

theorem land_mask_eq {a : Nat} (h : a < 2 ^ 32) : a &&& 0xfffffffc = (a / 4) * 4 := by
  have hm : (0xfffffffc : Nat) = (2 ^ 30 - 1) <<< 2 := by decide
  apply Nat.eq_of_testBit_eq
  intro i
  rw [hm, Nat.testBit_and, Nat.testBit_shiftLeft, Nat.testBit_two_pow_sub_one]
  have h4 : (a / 4) * 4 = (a >>> 2) <<< 2 := by
    rw [Nat.shiftLeft_eq, Nat.shiftRight_eq_div_pow]
  rw [h4, Nat.testBit_shiftLeft, Nat.testBit_shiftRight]
  rcases Nat.lt_or_ge i 2 with hi | hi
  · have hd : decide (2 ≤ i) = false := by
      simp only [decide_eq_false_iff_not]; omega
    rw [hd]; simp
  · have hd : decide (2 ≤ i) = true := by simp [hi]
    rcases Nat.lt_or_ge i 32 with hi32 | hi32
    · have h30 : decide (i - 2 < 30) = true := by
        simp only [decide_eq_true_eq]; omega
      rw [hd, h30, show 2 + (i - 2) = i by omega]
      simp
    · have hfa : a.testBit i = false :=
        Nat.testBit_lt_two_pow (Nat.lt_of_lt_of_le h (Nat.pow_le_pow_right (by omega) hi32))
      have h30 : decide (i - 2 < 30) = false := by
        simp only [decide_eq_false_iff_not]; omega
      rw [hd, h30, show 2 + (i - 2) = i by omega, hfa]
      simp

theorem round4_eq {s : Nat} (h : s + 3 < 2 ^ 32) : round4 s = ((s + 3) / 4) * 4 := by
  unfold round4
  rw [Nat.mod_eq_of_lt (by unfold U32; omega)]
  exact land_mask_eq (by omega)

theorem clog2_pow (k : Nat) : Nat.clog 2 (2 ^ k) = k := by
  apply Nat.le_antisymm
  · exact (Nat.le_pow_iff_clog_le (by omega)).1 (Nat.le_refl _)
  · exact (Nat.pow_le_pow_iff_right (a := 2) (by omega)).1 (Nat.le_pow_clog (by omega) _)

theorem clog2_eq_of_between {r i : Nat} (hlo : 2 ^ (i + 1) < r) (hhi : r ≤ 2 ^ (i + 2)) :
    Nat.clog 2 r = i + 2 := by
  apply Nat.le_antisymm
  · exact (Nat.le_pow_iff_clog_le (by omega)).1 hhi
  · by_contra hc
    have : Nat.clog 2 r ≤ i + 1 := by omega
    have := (Nat.le_pow_iff_clog_le (by omega)).2 this
    omega

/-- C1: a size-classed request of size `s ≥ 1` is first rounded up to a
multiple of 4, then routed to pool index `ceil_log2(rounded) - 2`, where
`ceil_log2` is the smallest `k` with `2^k ≥ x` (exactly `log2 x` on powers
of two); hence every `s` with `4*2^(i-1) < s ≤ 4*2^i` (i.e. `2*2^i < s ≤ 4*2^i`,
covering the boundaries 4, 8 and `4*2^i`) routes to pool `i`, and an index
outside `[0, pool_count)` yields none. -/
theorem C1_size_class_routing (ps : pool_set) (s : Nat)
    (h1 : 1 ≤ s) (h2 : s + 3 < 2 ^ 32) :
    (s ≤ round4 s ∧ round4 s < s + 4 ∧ round4 s % 4 = 0) ∧
    (round4 s ≤ 2 ^ ceil_log2 (round4 s) ∧
      (∀ k, round4 s ≤ 2 ^ k → ceil_log2 (round4 s) ≤ k) ∧
      (∀ k, round4 s = 2 ^ k → ceil_log2 (round4 s) = k)) ∧
    pool_index_of (round4 s) = ceil_log2 (round4 s) - 2 ∧
    (∀ i, 2 * 2 ^ i < s → s ≤ 4 * 2 ^ i → pool_index_of (round4 s) = i) ∧
    (∀ h : pool_index_of (round4 s) < ps.pools.length,
        ps.alloc s =
          (((ps.pools.get ⟨pool_index_of (round4 s), h⟩).alloc).1,
            ⟨ps.pools.set (pool_index_of (round4 s))
              ((ps.pools.get ⟨pool_index_of (round4 s), h⟩).alloc).2⟩)) ∧
    (ps.pools.length ≤ pool_index_of (round4 s) → (ps.alloc s).1 = none) := by
  have hr4 : round4 s = ((s + 3) / 4) * 4 := round4_eq h2
  have hge4 : 4 ≤ round4 s := by omega
  have hlt : round4 s < 2 ^ 32 := by omega
  have hil : integer_log (round4 s) = Nat.clog 2 (round4 s) :=
    integer_log_eq_clog (by omega) hlt
  have hclog2 : 2 ≤ Nat.clog 2 (round4 s) := by
    by_contra hc
    have hc1 : Nat.clog 2 (round4 s) ≤ 1 := by omega
    have := (Nat.le_pow_iff_clog_le (by omega)).2 hc1
    omega
  have hclog32 : Nat.clog 2 (round4 s) ≤ 32 :=
    (Nat.le_pow_iff_clog_le (by omega)).1 (Nat.le_of_lt hlt)
  have hneg2 : u32neg 2 = U32 - 2 := by unfold u32neg U32; decide
  have hpi : pool_index_of (round4 s) = Nat.clog 2 (round4 s) - 2 := by
    unfold pool_index_of
    rw [hil, hneg2]
    unfold U32 at *
    omega
  refine ⟨⟨by omega, by omega, by omega⟩, ⟨?_, ?_, ?_⟩, ?_, ?_, ?_, ?_⟩
  · exact Nat.le_pow_clog (by omega) _
  · intro k hk
    exact (Nat.le_pow_iff_clog_le (by omega)).1 hk
  · intro k hk
    rw [ceil_log2, hk, clog2_pow]
  · rw [hpi]; rfl
  · intro i hlo hhi
    have hp1 : (2:Nat) ^ (i + 1) = 2 * 2 ^ i := by
      rw [Nat.pow_succ]; omega
    have hp2 : (2:Nat) ^ (i + 2) = 4 * 2 ^ i := by
      rw [Nat.pow_succ, Nat.pow_succ]; omega
    have hc : Nat.clog 2 (round4 s) = i + 2 := by
      apply clog2_eq_of_between
      · rw [hp1]; omega
      · rw [hp2]
        have h2i : 0 < 2 ^ i := Nat.pos_pow_of_pos i (by omega)
        omega
    rw [hpi, hc]
    omega
  · intro h
    simp only [pool_set.alloc, dif_pos h]
  · intro h
    simp only [pool_set.alloc, dif_neg (Nat.not_lt.2 h)]

theorem C1_size_class_routing_witness :
    (1 ≤ 6 ∧ 6 + 3 < 2 ^ 32) ∧ pool_index_of (round4 6) = 1 ∧
      (pool_set.alloc ⟨[]⟩ 6).1 = none :=
  ⟨⟨by decide, by decide⟩,
   (C1_size_class_routing ⟨[]⟩ 6 (by decide) (by decide)).2.2.2.1 1 (by decide) (by decide),
   (C1_size_class_routing ⟨[]⟩ 6 (by decide) (by decide)).2.2.2.2.2 (by decide)⟩

theorem foldl_wr_not_mem (f g : Nat → Nat) (l : List Nat) (m : Nat → Nat) (a : Nat)
    (h : ∀ k ∈ l, f k ≠ a) :
    (l.foldl (fun m' k => wr m' (f k) (g k)) m) a = m a := by
  induction l generalizing m with
  | nil => rfl
  | cons x xs ih =>
    rw [List.foldl_cons, ih _ (fun k hk => h k (List.mem_cons_of_mem _ hk))]
    unfold wr
    rw [if_neg (fun e => h x (List.mem_cons_self _ _) e.symm)]

theorem foldl_wr_mem (f g : Nat → Nat) (l : List Nat) (m : Nat → Nat) (k : Nat)
    (hk : k ∈ l) (hnd : l.Nodup)
    (hinj : ∀ k1 ∈ l, ∀ k2 ∈ l, f k1 = f k2 → k1 = k2) :
    (l.foldl (fun m' j => wr m' (f j) (g j)) m) (f k) = g k := by
  induction l generalizing m with
  | nil => cases hk
  | cons x xs ih =>
    rw [List.foldl_cons]
    rcases List.mem_cons.1 hk with he | hm
    · subst he
      have hnx : k ∉ xs := (List.nodup_cons.1 hnd).1
      rw [foldl_wr_not_mem]
      · unfold wr; rw [if_pos rfl]
      · intro j hj hej
        have := hinj j (List.mem_cons_of_mem _ hj) k (List.mem_cons_self _ _) hej
        subst this
        exact hnx hj
    · exact ih _ hm (List.nodup_cons.1 hnd).2
        (fun a ha b hb => hinj a (List.mem_cons_of_mem _ ha) b (List.mem_cons_of_mem _ hb))

theorem init_addr_eq {bs : Nat} (hm : bs % 4 = 0) (k : Nat) :
    4 * (k * (bs >>> 2)) = k * bs := by
  have hdiv : bs >>> 2 = bs / 4 := by
    rw [Nat.shiftRight_eq_div_pow]
  have hc : bs / 4 * 4 = bs := Nat.div_mul_cancel (Nat.dvd_of_mod_eq_zero hm)
  rw [hdiv]
  calc 4 * (k * (bs / 4)) = k * (bs / 4 * 4) := by ring
    _ = k * bs := by rw [hc]

theorem init_mem_link {bs N base : Nat} {m0 : Nat → Nat}
    (h4 : 4 ≤ bs) (hm : bs % 4 = 0) (k : Nat) (hk : k < N - 1) :
    (block_pool.init bs N base m0).mem (base + k * bs) = base + (k + 1) * bs := by
  have key : (List.foldl
      (fun m' j => wr m' (base + 4 * (j * (bs >>> 2))) (base + 4 * ((j + 1) * (bs >>> 2))))
      m0 (List.range (N - 1))) (base + 4 * (k * (bs >>> 2)))
      = base + 4 * ((k + 1) * (bs >>> 2)) :=
    foldl_wr_mem (fun j => base + 4 * (j * (bs >>> 2)))
      (fun j => base + 4 * ((j + 1) * (bs >>> 2)))
      (List.range (N - 1)) m0 k (List.mem_range.2 hk) (List.nodup_range _)
      (fun a _ b _ hab => by
        have hab' : base + 4 * (a * (bs >>> 2)) = base + 4 * (b * (bs >>> 2)) := hab
        rw [init_addr_eq hm, init_addr_eq hm] at hab'
        exact Nat.eq_of_mul_eq_mul_right (by omega) (Nat.add_left_cancel hab'))
  rw [← init_addr_eq hm k, ← init_addr_eq hm (k + 1)]
  exact key

theorem init_mem_other {bs N base a : Nat} {m0 : Nat → Nat}
    (hm : bs % 4 = 0) (h : ∀ k, k < N - 1 → a ≠ base + k * bs) :
    (block_pool.init bs N base m0).mem a = m0 a := by
  have key : (List.foldl
      (fun m' j => wr m' (base + 4 * (j * (bs >>> 2))) (base + 4 * ((j + 1) * (bs >>> 2))))
      m0 (List.range (N - 1))) a = m0 a := by
    apply foldl_wr_not_mem (fun j => base + 4 * (j * (bs >>> 2)))
      (fun j => base + 4 * ((j + 1) * (bs >>> 2)))
    intro j hj e
    rw [init_addr_eq hm] at e
    exact h j (List.mem_range.1 hj) e.symm
  exact key

theorem allocs_run (base bs : Nat) : ∀ (cnt : Nat) (s : block_pool) (start : Nat),
    cnt ≤ s.free_count →
    (0 < cnt → s.next_block = base + start * bs) →
    (∀ k, start ≤ k → k + 1 < start + cnt → s.mem (base + k * bs) = base + (k + 1) * bs) →
    (s.allocs cnt).1 = (List.range cnt).map (fun t => some (base + (start + t) * bs)) ∧
    (s.allocs cnt).2.free_count = s.free_count - cnt ∧
    (s.allocs cnt).2.mem = s.mem ∧
    (s.allocs cnt).2.block_count = s.block_count ∧
    (s.allocs cnt).2.buffer = s.buffer ∧
    (s.allocs cnt).2.end_buffer = s.end_buffer := by
  intro cnt
  induction cnt with
  | zero =>
    intro s start _ _ _
    exact ⟨rfl, rfl, rfl, rfl, rfl, rfl⟩
  | succ n ih =>
    intro s start hfc hnb hchain
    have hnz : ¬ s.free_count = 0 := by omega
    have hstep : s.allocs (n + 1) =
        (some s.next_block ::
          (block_pool.allocs
            { s with next_block := s.mem s.next_block, free_count := s.free_count - 1 } n).1,
         (block_pool.allocs
            { s with next_block := s.mem s.next_block, free_count := s.free_count - 1 } n).2) := by
      simp only [block_pool.allocs, block_pool.alloc, if_neg hnz]
    have hfc' : n ≤
        (({ s with next_block := s.mem s.next_block,
                   free_count := s.free_count - 1 } : block_pool)).free_count := by
      show n ≤ s.free_count - 1
      omega
    have hnb' : 0 < n →
        (({ s with next_block := s.mem s.next_block,
                   free_count := s.free_count - 1 } : block_pool)).next_block
          = base + (start + 1) * bs := by
      intro hn
      show s.mem s.next_block = base + (start + 1) * bs
      rw [hnb (by omega), hchain start (Nat.le_refl _) (by omega)]
    have hchain' : ∀ k, start + 1 ≤ k → k + 1 < start + 1 + n →
        (({ s with next_block := s.mem s.next_block,
                   free_count := s.free_count - 1 } : block_pool)).mem (base + k * bs)
          = base + (k + 1) * bs := by
      intro k hk1 hk2
      exact hchain k (by omega) (by omega)
    obtain ⟨hl, hf0, hmem, hbc, hbuf, hend⟩ :=
      ih { s with next_block := s.mem s.next_block, free_count := s.free_count - 1 }
        (start + 1) hfc' hnb' hchain'
    rw [hstep]
    refine ⟨?_, by rw [hf0]; show s.free_count - 1 - n = s.free_count - (n + 1); omega, hmem, hbc, hbuf, hend⟩
    show some s.next_block :: _ = _
    rw [hl, hnb (by omega), List.range_succ_eq_map, List.map_cons, List.map_map]
    have harg : (fun t => some (base + (start + 1 + t) * bs))
        = ((fun t => some (base + (start + t) * bs)) ∘ Nat.succ) := by
      funext t
      show some (base + (start + 1 + t) * bs) = some (base + (start + Nat.succ t) * bs)
      rw [show start + 1 + t = start + Nat.succ t by omega]
    rw [harg, Nat.add_zero]

theorem allocs_eq_step (t : block_pool) (j : Nat) :
    t.allocs (j + 1) =
      ((t.alloc).1 :: (block_pool.allocs (t.alloc).2 j).1,
       (block_pool.allocs (t.alloc).2 j).2) := by
  simp only [block_pool.allocs]

theorem allocs_snoc (s : block_pool) (n : Nat) :
    s.allocs (n + 1) =
      ((s.allocs n).1 ++ [((s.allocs n).2.alloc).1], ((s.allocs n).2.alloc).2) := by
  induction n generalizing s with
  | zero => rfl
  | succ k ih =>
    rw [allocs_eq_step s (k + 1), ih ((s.alloc).2), allocs_eq_step s k]
    simp only [List.cons_append]

theorem allocs_init_prefix (bs N base k : Nat) (m0 : Nat → Nat)
    (h4 : 4 ≤ bs) (hm : bs % 4 = 0) (hk : k ≤ N) :
    ((block_pool.init bs N base m0).allocs k).1
        = (List.range k).map (fun t => some (base + t * bs)) ∧
    ((block_pool.init bs N base m0).allocs k).2.free_count = N - k := by
  have run := allocs_run base bs k (block_pool.init bs N base m0) 0
    (by show k ≤ N; omega)
    (fun _ => by show base = base + 0 * bs; simp)
    (fun j hj1 hj2 => init_mem_link h4 hm j (by omega))
  obtain ⟨hl, hfc, _, _, _, _⟩ := run
  constructor
  · rw [hl]
    apply List.map_congr_left
    intro t _
    rw [Nat.zero_add]
  · rw [hfc]
    rfl

/-- C3: a pool initialized with `block_count = N ≥ 1` (block sizes in the
source are the pool set's multiples of four, whence the `4 ≤ bs`,
`bs % 4 = 0` hypotheses) serves exactly the `N` block addresses
`base + k*bs` on its first `N` `alloc()` calls — pairwise distinct, all
inside `[buffer, end_buffer)` — and the `(N+1)`-th call returns none. -/
theorem C3_block_pool_exhaustion (bs N base : Nat) (m0 : Nat → Nat)
    (_hN : 1 ≤ N) (h4 : 4 ≤ bs) (hm : bs % 4 = 0) :
    ((block_pool.init bs N base m0).allocs N).1
        = (List.range N).map (fun k => some (base + k * bs)) ∧
    ((block_pool.init bs N base m0).allocs N).1.Nodup ∧
    (∀ p ∈ ((block_pool.init bs N base m0).allocs N).1, ∃ a, p = some a ∧
        (block_pool.init bs N base m0).buffer ≤ a ∧
        a < (block_pool.init bs N base m0).end_buffer) ∧
    ((block_pool.init bs N base m0).allocs (N + 1)).1
        = ((List.range N).map (fun k => some (base + k * bs))) ++ [none] := by
  obtain ⟨hl, hfc⟩ := allocs_init_prefix bs N base N m0 h4 hm (Nat.le_refl N)
  have hnone : (((block_pool.init bs N base m0).allocs N).2.alloc).1 = none := by
    unfold block_pool.alloc
    rw [if_pos (by omega)]
  refine ⟨hl, ?_, ?_, ?_⟩
  · rw [hl]
    apply List.Nodup.map_on
    · intro x hx y hy hxy
      have : base + x * bs = base + y * bs := Option.some.inj hxy
      exact Nat.eq_of_mul_eq_mul_right (by omega) (Nat.add_left_cancel this)
    · exact List.nodup_range _
  · intro p hp
    rw [hl] at hp
    obtain ⟨j, hj, rfl⟩ := List.mem_map.1 hp
    have hjN : j < N := List.mem_range.1 hj
    refine ⟨base + j * bs, rfl, ?_, ?_⟩
    · show base ≤ base + j * bs
      omega
    · show base + j * bs < base + bs * N
      have : j * bs < N * bs := (Nat.mul_lt_mul_right (by omega)).2 hjN
      rw [Nat.mul_comm bs N]
      omega
  · rw [allocs_snoc, hl, hnone]

theorem C3_block_pool_exhaustion_witness :
    (1 ≤ 2 ∧ 4 ≤ 4 ∧ 4 % 4 = 0) ∧
    ((block_pool.init 4 2 100 (fun _ => 0)).allocs 2).1
        = (List.range 2).map (fun k => some (100 + k * 4)) ∧
    ((block_pool.init 4 2 100 (fun _ => 0)).allocs 3).1
        = ((List.range 2).map (fun k => some (100 + k * 4))) ++ [none] :=
  ⟨⟨by decide, by decide, by decide⟩,
   (C3_block_pool_exhaustion 4 2 100 (fun _ => 0) (by decide) (by decide) (by decide)).1,
   (C3_block_pool_exhaustion 4 2 100 (fun _ => 0) (by decide) (by decide) (by decide)).2.2.2⟩

theorem deallocs_free_count (qs : List Nat) : ∀ s : block_pool,
    (s.deallocs qs).free_count = s.free_count + qs.length := by
  induction qs with
  | nil => intro s; rfl
  | cons a qs ih =>
    intro s
    show ((s.dealloc a).deallocs qs).free_count = _
    rw [ih (s.dealloc a)]
    show s.free_count + 1 + qs.length = s.free_count + (qs.length + 1)
    omega

theorem dealloc_stack : ∀ (qs : List Nat) (s : block_pool), qs.Nodup →
    ((s.deallocs qs).allocs qs.length).1 = qs.reverse.map some ∧
    ((s.deallocs qs).allocs qs.length).2.free_count = s.free_count ∧
    ((s.deallocs qs).allocs qs.length).2.next_block = s.next_block ∧
    (∀ a, a ∉ qs → ((s.deallocs qs).allocs qs.length).2.mem a = s.mem a) := by
  intro qs
  induction qs with
  | nil => intro s _; exact ⟨rfl, rfl, rfl, fun a _ => rfl⟩
  | cons a qs ih =>
    intro s hnd
    have hna : a ∉ qs := (List.nodup_cons.1 hnd).1
    have hdc : s.deallocs (a :: qs) = (s.dealloc a).deallocs qs := rfl
    obtain ⟨hl, hfc, hnb, hmem⟩ := ih (s.dealloc a) (List.nodup_cons.1 hnd).2
    have hlen : (a :: qs).length = qs.length + 1 := rfl
    rw [hdc, hlen, allocs_snoc, hl]
    set T : block_pool := (((s.dealloc a).deallocs qs).allocs qs.length).2 with hT
    have hfcT : T.free_count = s.free_count + 1 := by
      rw [hfc]; rfl
    have hmemA : T.mem a = s.next_block := by
      rw [hmem a hna]
      show wr s.mem a s.next_block a = s.next_block
      unfold wr
      rw [if_pos rfl]
    have hnbA : T.next_block = a := by
      rw [hnb]; rfl
    have hifneg : T.alloc = (some T.next_block,
        { T with next_block := T.mem T.next_block, free_count := T.free_count - 1 }) := by
      unfold block_pool.alloc
      rw [if_neg (by omega)]
    refine ⟨?_, ?_, ?_, ?_⟩
    · show List.map some qs.reverse ++ [(T.alloc).1] = List.map some (a :: qs).reverse
      rw [hifneg, List.reverse_cons, List.map_append, hnbA]
      rfl
    · show (T.alloc).2.free_count = s.free_count
      rw [hifneg]
      show T.free_count - 1 = s.free_count
      omega
    · show (T.alloc).2.next_block = s.next_block
      rw [hifneg]
      show T.mem T.next_block = s.next_block
      rw [hnbA, hmemA]
    · intro b hb
      show (T.alloc).2.mem b = s.mem b
      rw [hifneg]
      show T.mem b = s.mem b
      rw [hmem b (fun hbq => hb (List.mem_cons_of_mem _ hbq))]
      show wr s.mem a s.next_block b = s.mem b
      unfold wr
      rw [if_neg (fun e => hb (by rw [e]; exact List.mem_cons_self _ _))]

/-- C4: starting from a freshly initialized pool, allocating `k ≤ N`
blocks yields the addresses `base + t*bs` for `t < k`; freeing those `k`
blocks in an arbitrary order `qs` (any permutation of the allocated set)
and allocating `k` again returns exactly the reversed free order — a
permutation, hence the same set, of the original addresses — while
`free_count` goes `N - k` after the allocations, back to `N` after the
frees, and `N - k` again after the reuse. -/
theorem C4_free_list_reuse (bs N base k : Nat) (m0 : Nat → Nat) (qs : List Nat)
    (_hN : 1 ≤ N) (h4 : 4 ≤ bs) (hm : bs % 4 = 0) (hk : k ≤ N)
    (hperm : qs.Perm ((List.range k).map (fun t => base + t * bs))) :
    ((block_pool.init bs N base m0).allocs k).1
        = (List.range k).map (fun t => some (base + t * bs)) ∧
    ((block_pool.init bs N base m0).allocs k).2.free_count = N - k ∧
    ((((block_pool.init bs N base m0).allocs k).2).deallocs qs).free_count = N ∧
    (((((block_pool.init bs N base m0).allocs k).2).deallocs qs).allocs k).1
        = qs.reverse.map some ∧
    (((((block_pool.init bs N base m0).allocs k).2).deallocs qs).allocs k).1.Perm
        (((block_pool.init bs N base m0).allocs k).1) ∧
    (((((block_pool.init bs N base m0).allocs k).2).deallocs qs).allocs k).2.free_count
        = N - k := by
  obtain ⟨hl, hfc⟩ := allocs_init_prefix bs N base k m0 h4 hm hk
  have hlenq : qs.length = k := by
    rw [hperm.length_eq, List.length_map, List.length_range]
  have hndA : ((List.range k).map (fun t => base + t * bs)).Nodup := by
    apply List.Nodup.map_on
    · intro x _ y _ hxy
      exact Nat.eq_of_mul_eq_mul_right (by omega) (Nat.add_left_cancel hxy)
    · exact List.nodup_range _
  have hnd : qs.Nodup := (hperm.nodup_iff).2 hndA
  obtain ⟨hsl, hsfc, _, _⟩ :=
    dealloc_stack qs ((block_pool.init bs N base m0).allocs k).2 hnd
  rw [hlenq] at hsl hsfc
  have hdfc : ((((block_pool.init bs N base m0).allocs k).2).deallocs qs).free_count = N := by
    rw [deallocs_free_count, hfc, hlenq]
    omega
  refine ⟨hl, hfc, hdfc, hsl, ?_, by rw [hsfc, hfc]⟩
  rw [hsl, hl]
  have hp : qs.reverse.Perm ((List.range k).map (fun t => base + t * bs)) :=
    (List.reverse_perm qs).trans hperm
  have := hp.map some
  rw [List.map_map] at this
  exact this

theorem C4_free_list_reuse_witness :
    (1 ≤ 2 ∧ 4 ≤ 4 ∧ 4 % 4 = 0 ∧ 2 ≤ 2 ∧
      List.Perm [104, 100] ((List.range 2).map (fun t => 100 + t * 4))) ∧
    ((((block_pool.init 4 2 100 (fun _ => 0)).allocs 2).2.deallocs [104, 100]).allocs 2).1
        = List.map some (List.reverse [104, 100]) ∧
    (((block_pool.init 4 2 100 (fun _ => 0)).allocs 2).2.deallocs [104, 100]).free_count = 2 :=
  ⟨⟨by decide, by decide, by decide, by decide, by decide⟩,
   (C4_free_list_reuse 4 2 100 2 (fun _ => 0) [104, 100]
      (by decide) (by decide) (by decide) (by decide) (by decide)).2.2.2.1,
   (C4_free_list_reuse 4 2 100 2 (fun _ => 0) [104, 100]
      (by decide) (by decide) (by decide) (by decide) (by decide)).2.2.1⟩

/-- C5 (amended): `init` threads the intrusive free list by writing, for
every `k` in `0..block_count-2`, the address of block `k+1` into block
`k`'s first word, sets the free-list head to block 0 and `free_count` to
`block_count`; the last block's link word is never written — it keeps
whatever the backing memory held — rather than being set to the null
sentinel. -/
theorem C5_init_threading (bs N base : Nat) (m0 : Nat → Nat)
    (_hN : 1 ≤ N) (h4 : 4 ≤ bs) (hm : bs % 4 = 0) :
    (∀ k, k < N - 1 →
        (block_pool.init bs N base m0).mem (base + k * bs) = base + (k + 1) * bs) ∧
    (block_pool.init bs N base m0).mem (base + (N - 1) * bs) = m0 (base + (N - 1) * bs) ∧
    (block_pool.init bs N base m0).next_block = base ∧
    (block_pool.init bs N base m0).free_count = N := by
  refine ⟨fun k hk => init_mem_link h4 hm k hk, ?_, rfl, rfl⟩
  apply init_mem_other hm
  intro k hk e
  have h1 := Nat.add_left_cancel e
  have h2 := Nat.eq_of_mul_eq_mul_right (show 0 < bs by omega) h1
  omega

/-- C5, claim as stated is false: after `init(4, 2)` over backing memory
whose words all hold 7, the last block's link word still holds 7, not
the null sentinel — the loop `for (block = 0; block < block_count - 1; ...)`
never writes the last block. -/
theorem C5_counterexample :
    (block_pool.init 4 2 100 (fun _ => 7)).mem (100 + (2 - 1) * 4) = 7 ∧
    ¬ (block_pool.init 4 2 100 (fun _ => 7)).mem (100 + (2 - 1) * 4) = sentinel := by
  decide

theorem C5_init_threading_witness :
    (1 ≤ 2 ∧ 4 ≤ 4 ∧ 4 % 4 = 0) ∧
    (block_pool.init 4 2 100 (fun _ => 7)).mem (100 + 0 * 4) = 100 + (0 + 1) * 4 ∧
    (block_pool.init 4 2 100 (fun _ => 7)).mem (100 + (2 - 1) * 4) = 7 :=
  ⟨⟨by decide, by decide, by decide⟩,
   (C5_init_threading 4 2 100 (fun _ => 7) (by decide) (by decide) (by decide)).1 0 (by decide),
   (C5_init_threading 4 2 100 (fun _ => 7) (by decide) (by decide) (by decide)).2.1⟩

theorem pools_dealloc_none : ∀ (l : List block_pool) (p : Nat),
    (∀ pool ∈ l, pool.in_range p = false) → pools_dealloc l p = (false, l) := by
  intro l
  induction l with
  | nil => intro p _; rfl
  | cons pool rest ih =>
    intro p h
    have h0 : pool.in_range p = false := h pool (List.mem_cons_self _ _)
    show (if pool.in_range p then _ else _) = _
    rw [if_neg (by rw [h0]; exact Bool.false_ne_true), ih p
      (fun q hq => h q (List.mem_cons_of_mem _ hq))]

theorem pools_dealloc_first : ∀ (l : List block_pool) (p : Nat) (i : Nat) (hi : i < l.length),
    (l.get ⟨i, hi⟩).in_range p = true →
    (∀ j (hj : j < i), (l.get ⟨j, Nat.lt_trans hj hi⟩).in_range p = false) →
    pools_dealloc l p = (true, l.set i ((l.get ⟨i, hi⟩).dealloc p)) := by
  intro l
  induction l with
  | nil => intro p i hi; exact absurd hi (Nat.not_lt_zero i)
  | cons pool rest ih =>
    intro p i hi hclaim hprev
    cases i with
    | zero =>
      have hc : pool.in_range p = true := hclaim
      show (if pool.in_range p then _ else _) = _
      rw [if_pos hc]
      rfl
    | succ i' =>
      have h0 : pool.in_range p = false := hprev 0 (Nat.succ_pos _)
      have hi' : i' < rest.length := Nat.lt_of_succ_lt_succ hi
      show (if pool.in_range p then _ else _) = _
      rw [if_neg (by rw [h0]; exact Bool.false_ne_true)]
      have := ih p i' hi' hclaim (fun j hj => hprev (j + 1) (Nat.succ_lt_succ hj))
      rw [this]
      rfl

/-- The allocation strategies `sys::pool_type::en` recognized by the
arena allocator. -/
inductive pool_type where
  | logarithmic
  | fixed
  | heap
deriving DecidableEq

/-- A pointer value returned by the arena allocator: either a byte
address inside the modelled memory (arena or pool storage), or the
`id`-th allocation handed out by the abstract general heap (the
platform `malloc`, assumed to succeed — heap exhaustion is out of
scope, per the spec a fatal condition reported to the caller). -/
inductive ptr where
  | mem (addr : Nat)
  | heap (id : Nat)
deriving DecidableEq

/-- State of the `fixed_pool<PoolSize>` singleton together with the
process-wide globals it uses: `poolSize` is the `PoolSize` template
parameter, `frag_buffer` the arena base address, `next` the bump
cursor (an address), `released` / `debug` the global flags, `pools`
the `pool_set` singleton's state, and `heap_count` the abstract heap
allocation counter. -/
structure fixed_pool where
  poolSize : Nat
  frag_buffer : Nat
  next : Nat
  released : Bool
  debug : Bool
  pools : pool_set
  heap_count : Nat

/-- One diagnostic trace line, as emitted by `fixed_pool::alloc` when
`debug` is set: the strategy label, the logged size (the source logs
the `bytes` argument), the resulting pointer (`none` for null), the
success marker `p != 0`, and the `heap_fallback` flag. -/
structure trace_record where
  strategy : pool_type
  size : Nat
  addr : Option ptr
  success : Bool
  fallback : Bool
deriving DecidableEq

/-- The strategy dispatch of `fixed_pool::alloc` (lines 176-192): the
logarithmic branch delegates to the pool set; the fixed branch, guarded
by `alloc_bytes <= PoolSize`, runs the CAS retry loop — executed here
without contention, so the first iteration decides: either the bounds
check `next_next > frag_buffer + PoolSize` breaks out with `p = 0`, or
the CAS succeeds and the cursor advances (the interleaved multi-thread
semantics of the same loop is `bump_step` below); the heap branch
leaves `p = 0` for the common malloc path. -/
def strategy_alloc (s : fixed_pool) (alloc_bytes : Nat) (ty : pool_type) :
    Option ptr × fixed_pool :=
  match ty with
  | pool_type.logarithmic =>
    let r := s.pools.alloc alloc_bytes
    (r.1.map ptr.mem, { s with pools := r.2 })
  | pool_type.fixed =>
    if alloc_bytes ≤ s.poolSize then
      if s.next + alloc_bytes > s.frag_buffer + s.poolSize then (none, s)
      else (some (ptr.mem s.next), { s with next := s.next + alloc_bytes })
    else (none, s)
  | pool_type.heap => (none, s)

/-- Embedding of `fixed_pool::alloc`: round the size, dispatch on the
strategy, set `heap_fallback` iff no pointer was produced, serve from
the heap when the strategy is heap or a fallback is pending, and emit
one trace record when `debug` is set. -/
def fixed_pool.alloc (s : fixed_pool) (bytes : Nat) (ty : pool_type) :
    Option ptr × fixed_pool × Option trace_record :=
  let alloc_bytes := round4 bytes
  let r := strategy_alloc s alloc_bytes ty
  let heap_fallback := r.1.isNone
  let r2 := if ty = pool_type.heap ∨ heap_fallback = true
            then (some (ptr.heap r.2.heap_count), { r.2 with heap_count := r.2.heap_count + 1 })
            else r
  let tr := if s.debug
            then some { strategy := ty, size := bytes, addr := r2.1,
                        success := r2.1.isSome, fallback := heap_fallback }
            else none
  (r2.1, r2.2, tr)

/-- What `fixed_pool::dealloc` did with the pointer: returned it to a
block pool's free list, did nothing, or passed it to the heap `free`. -/
inductive dealloc_effect where
  | pooled
  | noop
  | heap_freed
deriving DecidableEq

/-- Embedding of `fixed_pool::dealloc`: a pointer inside the arena's
byte range is offered to the pool set unless `released`; claiming it
returns early; otherwise the call falls off the end of the in-range
branch and does nothing. Only out-of-range pointers reach `free`. -/
def fixed_pool.dealloc (s : fixed_pool) (p : Nat) : dealloc_effect × fixed_pool :=
  if s.frag_buffer ≤ p ∧ p < s.frag_buffer + s.poolSize then
    if s.released = false then
      let r := s.pools.dealloc p
      if r.1 then (dealloc_effect.pooled, { s with pools := r.2 })
      else (dealloc_effect.noop, { s with pools := r.2 })
    else (dealloc_effect.noop, s)
  else (dealloc_effect.heap_freed, s)

def sample_arena : fixed_pool :=
  { poolSize := 16, frag_buffer := 0, next := 8, released := false, debug := true,
    pools := ⟨[block_pool.init 4 2 0 (fun _ => 0)]⟩, heap_count := 0 }

def sample_arena_released : fixed_pool := { sample_arena with released := true }

theorem alloc_strategy_none_heap (s : fixed_pool) (bytes : Nat) (ty : pool_type)
    (h : strategy_alloc s (round4 bytes) ty = (none, s)) :
    s.alloc bytes ty = (some (ptr.heap s.heap_count),
      { s with heap_count := s.heap_count + 1 },
      if s.debug then
        some { strategy := ty
               size := bytes
               addr := some (ptr.heap s.heap_count)
               success := true
               fallback := true }
      else none) := by
  simp only [fixed_pool.alloc, h, Option.isNone_none, eq_self_iff_true, or_true,
    if_true, Option.isSome_some]

/-- C7: an arena-direct (fixed-strategy) request whose rounded size
exceeds the arena capacity `PoolSize` — e.g. a 20-byte request against a
16-byte arena — skips the bump path entirely (the guard
`alloc_bytes <= PoolSize` fails), falls back to the general heap, returns
the heap pointer, and leaves the cursor untouched. -/
theorem C7_arena_direct_overflow (s : fixed_pool) (bytes : Nat)
    (h : s.poolSize < round4 bytes) :
    (s.alloc bytes pool_type.fixed).1 = some (ptr.heap s.heap_count) ∧
    (s.alloc bytes pool_type.fixed).2.1 = { s with heap_count := s.heap_count + 1 } ∧
    (s.alloc bytes pool_type.fixed).2.1.next = s.next := by
  have hs : strategy_alloc s (round4 bytes) pool_type.fixed = (none, s) := by
    unfold strategy_alloc
    rw [if_neg (Nat.not_le.2 h)]
  rw [alloc_strategy_none_heap s bytes pool_type.fixed hs]
  exact ⟨rfl, rfl, rfl⟩

theorem C7_arena_direct_overflow_witness :
    sample_arena.poolSize < round4 20 ∧
    (sample_arena.alloc 20 pool_type.fixed).1 = some (ptr.heap sample_arena.heap_count) ∧
    (sample_arena.alloc 20 pool_type.fixed).2.1.next = sample_arena.next :=
  ⟨by decide,
   (C7_arena_direct_overflow sample_arena 20 (by decide)).1,
   (C7_arena_direct_overflow sample_arena 20 (by decide)).2.2⟩

/-- C10: a size-classed request of 0 bytes stays 0 after rounding,
`integer_log(0)` evaluates to 0, the unsigned index `0 - 2` wraps to
`2^32 - 2`, which fails the `pool_index < pool_count` bounds check for
any realistic pool count, so `pool_set::alloc` returns none regardless
of the pools' free blocks and the arena serves the request from the
general heap. -/
theorem C10_zero_size_request (s : fixed_pool)
    (hlen : s.pools.pools.length < U32 - 2) :
    round4 0 = 0 ∧
    integer_log 0 = 0 ∧
    pool_index_of (round4 0) = U32 - 2 ∧
    s.pools.alloc 0 = (none, s.pools) ∧
    (s.alloc 0 pool_type.logarithmic).1 = some (ptr.heap s.heap_count) ∧
    (s.alloc 0 pool_type.logarithmic).2.1 = { s with heap_count := s.heap_count + 1 } := by
  have h3 : pool_index_of (round4 0) = U32 - 2 := by decide
  have h4 : s.pools.alloc 0 = (none, s.pools) := by
    unfold pool_set.alloc
    rw [dif_neg]
    rw [h3]
    unfold U32 at hlen ⊢
    omega
  have hs : strategy_alloc s (round4 0) pool_type.logarithmic = (none, s) := by
    unfold strategy_alloc
    rw [show round4 0 = 0 from by decide, h4]
    rfl
  rw [alloc_strategy_none_heap s 0 pool_type.logarithmic hs]
  exact ⟨by decide, by decide, h3, h4, rfl, rfl⟩

theorem C10_zero_size_request_witness :
    sample_arena.pools.pools.length < U32 - 2 ∧
    sample_arena.pools.alloc 0 = (none, sample_arena.pools) ∧
    (sample_arena.alloc 0 pool_type.logarithmic).1
      = some (ptr.heap sample_arena.heap_count) :=
  ⟨by decide,
   (C10_zero_size_request sample_arena (by decide)).2.2.2.1,
   (C10_zero_size_request sample_arena (by decide)).2.2.2.2.1⟩

/-- C2: before `release()`, deallocation routes on pointer identity: an
in-arena pointer claimed by a block pool (the first pool, in index
order, whose `in_range` holds) is pushed onto that pool's free list and
nothing else changes; an in-arena pointer no pool claims is left alone
(no pool state change, no heap free); a pointer outside the arena's
byte range goes to the general heap `free`. -/
theorem C2_dealloc_ownership_routing (s : fixed_pool) (p : Nat)
    (hrel : s.released = false) :
    ((s.frag_buffer ≤ p ∧ p < s.frag_buffer + s.poolSize) →
      ∀ i, ∀ hi : i < s.pools.pools.length,
        (s.pools.pools.get ⟨i, hi⟩).in_range p = true →
        (∀ j, ∀ hj : j < i, (s.pools.pools.get ⟨j, Nat.lt_trans hj hi⟩).in_range p = false) →
        s.dealloc p = (dealloc_effect.pooled,
          { s with pools :=
              ⟨s.pools.pools.set i ((s.pools.pools.get ⟨i, hi⟩).dealloc p)⟩ })) ∧
    ((s.frag_buffer ≤ p ∧ p < s.frag_buffer + s.poolSize) →
      (∀ pool ∈ s.pools.pools, pool.in_range p = false) →
      s.dealloc p = (dealloc_effect.noop, s)) ∧
    (¬ (s.frag_buffer ≤ p ∧ p < s.frag_buffer + s.poolSize) →
      s.dealloc p = (dealloc_effect.heap_freed, s)) := by
  refine ⟨?_, ?_, ?_⟩
  · intro hin i hi hclaim hprev
    unfold fixed_pool.dealloc pool_set.dealloc
    rw [if_pos hin, if_pos hrel, pools_dealloc_first s.pools.pools p i hi hclaim hprev]
    rfl
  · intro hin hnone
    unfold fixed_pool.dealloc pool_set.dealloc
    rw [if_pos hin, if_pos hrel, pools_dealloc_none s.pools.pools p hnone]
    rfl
  · intro hout
    unfold fixed_pool.dealloc
    rw [if_neg hout]

theorem C2_dealloc_ownership_routing_witness :
    (sample_arena.released = false ∧
      (sample_arena.frag_buffer ≤ 4 ∧ 4 < sample_arena.frag_buffer + sample_arena.poolSize) ∧
      (sample_arena.pools.pools.get ⟨0, by decide⟩).in_range 4 = true ∧
      (sample_arena.frag_buffer ≤ 12 ∧ 12 < sample_arena.frag_buffer + sample_arena.poolSize) ∧
      (∀ pool ∈ sample_arena.pools.pools, pool.in_range 12 = false) ∧
      ¬ (sample_arena.frag_buffer ≤ 20 ∧ 20 < sample_arena.frag_buffer + sample_arena.poolSize)) ∧
    sample_arena.dealloc 4 = (dealloc_effect.pooled,
      { sample_arena with pools :=
          ⟨sample_arena.pools.pools.set 0
            ((sample_arena.pools.pools.get ⟨0, by decide⟩).dealloc 4)⟩ }) ∧
    sample_arena.dealloc 12 = (dealloc_effect.noop, sample_arena) ∧
    sample_arena.dealloc 20 = (dealloc_effect.heap_freed, sample_arena) :=
  ⟨⟨rfl, by decide, by decide, by decide, by decide, by decide⟩,
   (C2_dealloc_ownership_routing sample_arena 4 rfl).1 (by decide) 0 (by decide)
     (by decide) (fun j hj => absurd hj (Nat.not_lt_zero j)),
   (C2_dealloc_ownership_routing sample_arena 12 rfl).2.1 (by decide) (by decide),
   (C2_dealloc_ownership_routing sample_arena 20 rfl).2.2 (by decide)⟩

/-- C6 (amended): once `released` is set, an in-arena pointer passed to
`dealloc` skips the pool-set probe and the call completes as a no-op —
the pointer is neither returned to any pool's free list nor passed to
the heap `free` (the `else free(p)` branch belongs to the outer range
test, so an in-range pointer never reaches it). -/
theorem C6_dealloc_after_release (s : fixed_pool) (p : Nat)
    (hrel : s.released = true)
    (hin : s.frag_buffer ≤ p ∧ p < s.frag_buffer + s.poolSize) :
    s.dealloc p = (dealloc_effect.noop, s) := by
  unfold fixed_pool.dealloc
  rw [if_pos hin, if_neg (fun h => by rw [hrel] at h; exact Bool.noConfusion h)]

/-- C6, claim as stated is false: after `release()`, an in-arena pointer
is not routed to the heap free path — the call is a strict no-op (here
at pointer 4 inside a released 16-byte arena). -/
theorem C6_counterexample :
    (sample_arena_released.dealloc 4).1 = dealloc_effect.noop ∧
    (sample_arena_released.dealloc 4).1 ≠ dealloc_effect.heap_freed := by
  decide

theorem C6_dealloc_after_release_witness :
    (sample_arena_released.released = true ∧
      (sample_arena_released.frag_buffer ≤ 4 ∧
        4 < sample_arena_released.frag_buffer + sample_arena_released.poolSize)) ∧
    sample_arena_released.dealloc 4 = (dealloc_effect.noop, sample_arena_released) :=
  ⟨⟨rfl, by decide⟩,
   C6_dealloc_after_release sample_arena_released 4 rfl (by decide)⟩

/-- C9 (amended): with diagnostics enabled, every `alloc` call emits
exactly one trace recording the requested strategy, the requested
(unrounded) size — the source logs the `bytes` argument, not
`alloc_bytes` — the resulting pointer, success iff the pointer is
non-null, and the `heap_fallback` flag, which is set exactly when the
strategy branch itself produced no pointer; in particular it is also
set on explicit heap-strategy requests, where no fallback occurred. -/
theorem C9_trace_contents (s : fixed_pool) (bytes : Nat) (ty : pool_type)
    (hdbg : s.debug = true) :
    (s.alloc bytes ty).2.2 = some
      { strategy := ty
        size := bytes
        addr := (s.alloc bytes ty).1
        success := ((s.alloc bytes ty).1).isSome
        fallback := ((strategy_alloc s (round4 bytes) ty).1).isNone } := by
  simp only [fixed_pool.alloc, hdbg, eq_self_iff_true, if_true]

/-- C9, claim as stated is false: the trace of a 6-byte explicit-heap
request records size 6, not the rounded size 8, and flags a heap
fallback although the heap was the requested strategy, not a fallback
target. -/
theorem C9_counterexample :
    ((sample_arena.alloc 6 pool_type.heap).2.2).map trace_record.size = some 6 ∧
    round4 6 = 8 ∧
    ((sample_arena.alloc 6 pool_type.heap).2.2).map trace_record.fallback = some true := by
  decide

theorem C9_trace_contents_witness :
    sample_arena.debug = true ∧
    (sample_arena.alloc 6 pool_type.heap).2.2 = some
      { strategy := pool_type.heap
        size := 6
        addr := (sample_arena.alloc 6 pool_type.heap).1
        success := ((sample_arena.alloc 6 pool_type.heap).1).isSome
        fallback := ((strategy_alloc sample_arena (round4 6) pool_type.heap).1).isNone } :=
  ⟨rfl, C9_trace_contents sample_arena 6 pool_type.heap rfl⟩

/-- Per-thread control point inside the CAS retry loop of
`fixed_pool::alloc` (lines 180-191): before the read of `next`; after
reading `cur_next = o` (about to bounds-check and CAS); completed with
reserved base address `r`; or broken out to the heap-fallback path
because the bounds check `next_next > frag_buffer + PoolSize` failed. -/
inductive thread_state where
  | idle
  | read (observed : Nat)
  | done (result : Nat)
  | failed
deriving DecidableEq

/-- Shared state of the interleaved executions: the `next` cursor and
one control point per concurrent caller. -/
structure bump_state where
  cursor : Nat
  threads : List thread_state
deriving DecidableEq

/-- Initial state: cursor at `c0`, all `n` callers before their first
read. -/
def bump_init (n c0 : Nat) : bump_state :=
  ⟨c0, List.replicate n thread_state.idle⟩

/-- One atomic step of caller `i` in the CAS retry loop: an idle caller
reads the cursor, first aborting to the fallback path if
`cursor + alloc_bytes` would pass `endAddr` (the source's
`next_next > frag_buffer + PoolSize` break); a caller holding an
observed value `o` attempts `cas(&next, o, o + b)`, which succeeds —
completing the call with base `o` — exactly when the cursor still
equals `o`, and otherwise retries from the read. Completed or failed
callers, and out-of-range indices, do nothing. -/
def bump_step (endAddr b : Nat) (st : bump_state) (i : Nat) : bump_state :=
  match st.threads[i]? with
  | some thread_state.idle =>
    if st.cursor + b > endAddr then
      { st with threads := st.threads.set i thread_state.failed }
    else
      { st with threads := st.threads.set i (thread_state.read st.cursor) }
  | some (thread_state.read o) =>
    if st.cursor = o then
      { cursor := o + b, threads := st.threads.set i (thread_state.done o) }
    else
      { st with threads := st.threads.set i thread_state.idle }
  | _ => st

/-- Run a whole interleaving: the schedule lists which caller takes the
next atomic step. -/
def bump_run (endAddr b : Nat) (st : bump_state) (sched : List Nat) : bump_state :=
  sched.foldl (bump_step endAddr b) st

/-- Whether a caller has completed its reservation. -/
def is_done : thread_state → Bool
  | thread_state.done _ => true
  | _ => false

/-- Number of completed callers. -/
def dcount (l : List thread_state) : Nat := (l.filter is_done).length

theorem dcount_set_nondone : ∀ (l : List thread_state) (i : Nat) (t t' : thread_state),
    l[i]? = some t → is_done t = false → is_done t' = false →
    dcount (l.set i t') = dcount l := by
  intro l
  induction l with
  | nil => intro i t t' h; exact absurd h (by simp)
  | cons x xs ih =>
    intro i t t' h hdt hdt'
    cases i with
    | zero =>
      have hx : x = t := by
        rw [List.getElem?_cons_zero] at h
        exact Option.some.inj h
      subst hx
      show dcount (t' :: xs) = dcount (x :: xs)
      unfold dcount
      rw [List.filter_cons, List.filter_cons]
      simp [hdt, hdt']
    | succ i' =>
      rw [List.getElem?_cons_succ] at h
      show dcount (x :: xs.set i' t') = dcount (x :: xs)
      unfold dcount
      rw [List.filter_cons, List.filter_cons]
      have hrec := ih i' t t' h hdt hdt'
      unfold dcount at hrec
      cases is_done x
      · simpa using hrec
      · simpa using hrec

theorem dcount_set_done : ∀ (l : List thread_state) (i : Nat) (t : thread_state) (r : Nat),
    l[i]? = some t → is_done t = false →
    dcount (l.set i (thread_state.done r)) = dcount l + 1 := by
  intro l
  induction l with
  | nil => intro i t r h; exact absurd h (by simp)
  | cons x xs ih =>
    intro i t r h hdt
    cases i with
    | zero =>
      have hx : x = t := by
        rw [List.getElem?_cons_zero] at h
        exact Option.some.inj h
      subst hx
      show dcount (thread_state.done r :: xs) = dcount (x :: xs) + 1
      unfold dcount
      rw [List.filter_cons, List.filter_cons]
      rw [hdt, show is_done (thread_state.done r) = true from rfl]
      simp
    | succ i' =>
      rw [List.getElem?_cons_succ] at h
      show dcount (x :: xs.set i' (thread_state.done r)) = dcount (x :: xs) + 1
      unfold dcount
      rw [List.filter_cons, List.filter_cons]
      have hrec := ih i' t r h hdt
      unfold dcount at hrec
      cases is_done x
      · simpa using hrec
      · simpa using hrec

theorem dcount_lt : ∀ (l : List thread_state) (i : Nat) (t : thread_state),
    l[i]? = some t → is_done t = false → dcount l < l.length := by
  intro l
  induction l with
  | nil => intro i t h; exact absurd h (by simp)
  | cons x xs ih =>
    intro i t h hdt
    cases i with
    | zero =>
      have hx : x = t := by
        rw [List.getElem?_cons_zero] at h
        exact Option.some.inj h
      subst hx
      unfold dcount
      rw [List.filter_cons, hdt]
      have := List.length_filter_le is_done xs
      show (xs.filter is_done).length < xs.length + 1
      omega
    | succ i' =>
      rw [List.getElem?_cons_succ] at h
      have hrec := ih i' t h hdt
      unfold dcount at hrec ⊢
      rw [List.filter_cons]
      cases is_done x
      · show ((xs.filter is_done)).length < xs.length + 1
        omega
      · show ((xs.filter is_done)).length + 1 < xs.length + 1
        omega

theorem dcount_all_done : ∀ (l : List thread_state),
    (∀ t ∈ l, is_done t = true) → dcount l = l.length := by
  intro l
  induction l with
  | nil => intro _; rfl
  | cons x xs ih =>
    intro h
    unfold dcount
    rw [List.filter_cons, h x (List.mem_cons_self _ _)]
    show (xs.filter is_done).length + 1 = xs.length + 1
    have := ih (fun t ht => h t (List.mem_cons_of_mem _ ht))
    unfold dcount at this
    omega

theorem dcount_replicate_idle : ∀ n, dcount (List.replicate n thread_state.idle) = 0 := by
  intro n
  induction n with
  | zero => rfl
  | succ k ih =>
    show dcount (thread_state.idle :: List.replicate k thread_state.idle) = 0
    unfold dcount
    rw [List.filter_cons]
    show (if is_done thread_state.idle = true then _ else (List.replicate k thread_state.idle).filter is_done).length = 0
    rw [if_neg (by simp [is_done])]
    exact ih

/-- Invariant of the interleaved bump loop: `NT` callers; nobody has
fallen to the heap path; the cursor equals the start plus one stride
per completed caller; every completed reservation lies in
`[c0, cursor)` with its stride ending before the cursor; and any two
completed reservations occupy disjoint `b`-byte ranges. -/
def bump_inv (NT b c0 : Nat) (st : bump_state) : Prop :=
  st.threads.length = NT ∧
  (∀ i : Nat, st.threads[i]? ≠ some thread_state.failed) ∧
  st.cursor = c0 + b * dcount st.threads ∧
  (∀ (i r : Nat), st.threads[i]? = some (thread_state.done r) → c0 ≤ r ∧ r + b ≤ st.cursor) ∧
  (∀ (i j ri rj : Nat), i ≠ j → st.threads[i]? = some (thread_state.done ri) →
      st.threads[j]? = some (thread_state.done rj) → ri + b ≤ rj ∨ rj + b ≤ ri)

theorem bump_inv_init (NT b c0 : Nat) : bump_inv NT b c0 (bump_init NT c0) := by
  have hrep : ∀ (i : Nat) (t : thread_state),
      (List.replicate NT thread_state.idle)[i]? = some t → t = thread_state.idle := by
    intro i t h
    rw [List.getElem?_replicate] at h
    by_cases hi : i < NT
    · rw [if_pos hi] at h; exact (Option.some.inj h).symm
    · rw [if_neg hi] at h; exact Option.noConfusion h
  refine ⟨List.length_replicate _ _, ?_, ?_, ?_, ?_⟩
  · intro i h
    exact thread_state.noConfusion (hrep i _ h)
  · show c0 = c0 + b * dcount (List.replicate NT thread_state.idle)
    rw [dcount_replicate_idle]
    omega
  · intro i r h
    exact thread_state.noConfusion (hrep i _ h)
  · intro i j ri rj hij hi hj
    exact thread_state.noConfusion (hrep i _ hi)

theorem bump_inv_step (NT b c0 endAddr : Nat) (hcap : c0 + NT * b ≤ endAddr)
    (st : bump_state) (hinv : bump_inv NT b c0 st) (i : Nat) :
    bump_inv NT b c0 (bump_step endAddr b st i) := by
  obtain ⟨hlen, hnf, hcur, hone, htwo⟩ := hinv
  cases hl : st.threads[i]? with
  | none =>
    simp only [bump_step, hl]
    exact ⟨hlen, hnf, hcur, hone, htwo⟩
  | some t =>
    have hilt : i < st.threads.length := (List.getElem?_eq_some_iff.1 hl).1
    cases t with
    | idle =>
      have hdc : dcount st.threads < NT := by
        have := dcount_lt st.threads i thread_state.idle hl rfl
        omega
      have hbound : ¬ st.cursor + b > endAddr := by
        have hmul : b * (dcount st.threads + 1) ≤ b * NT :=
          Nat.mul_le_mul_left b (by omega)
        have hexp : b * (dcount st.threads + 1) = b * dcount st.threads + b := by ring
        have hcm : b * NT = NT * b := Nat.mul_comm b NT
        omega
      simp only [bump_step, hl]
      rw [if_neg hbound]
      refine ⟨by rw [List.length_set]; exact hlen, ?_, ?_, ?_, ?_⟩
      · intro j
        by_cases hj : i = j
        · subst hj
          rw [List.getElem?_set_self hilt]
          intro hcon
          exact thread_state.noConfusion (Option.some.inj hcon)
        · rw [List.getElem?_set_ne hj]
          exact hnf j
      · show st.cursor = c0 + b * dcount (st.threads.set i (thread_state.read st.cursor))
        rw [dcount_set_nondone st.threads i thread_state.idle (thread_state.read st.cursor) hl rfl rfl]
        exact hcur
      · intro j r hj
        by_cases hij : i = j
        · subst hij
          rw [List.getElem?_set_self hilt] at hj
          exact thread_state.noConfusion (Option.some.inj hj)
        · rw [List.getElem?_set_ne hij] at hj
          exact hone j r hj
      · intro j k rj rk hjk hj hk
        by_cases hij : i = j
        · subst hij
          rw [List.getElem?_set_self hilt] at hj
          exact thread_state.noConfusion (Option.some.inj hj)
        · rw [List.getElem?_set_ne hij] at hj
          by_cases hik : i = k
          · subst hik
            rw [List.getElem?_set_self hilt] at hk
            exact thread_state.noConfusion (Option.some.inj hk)
          · rw [List.getElem?_set_ne hik] at hk
            exact htwo j k rj rk hjk hj hk
    | read o =>
      simp only [bump_step, hl]
      by_cases hc : st.cursor = o
      · rw [if_pos hc]
        have hdd : dcount (st.threads.set i (thread_state.done o)) = dcount st.threads + 1 :=
          dcount_set_done st.threads i (thread_state.read o) o hl rfl
        refine ⟨by rw [List.length_set]; exact hlen, ?_, ?_, ?_, ?_⟩
        · intro j
          by_cases hj : i = j
          · subst hj
            rw [List.getElem?_set_self hilt]
            intro hcon
            exact thread_state.noConfusion (Option.some.inj hcon)
          · rw [List.getElem?_set_ne hj]
            exact hnf j
        · show o + b = c0 + b * dcount (st.threads.set i (thread_state.done o))
          rw [hdd]
          have hexp : b * (dcount st.threads + 1) = b * dcount st.threads + b := by ring
          omega
        · intro j r hj
          by_cases hij : i = j
          · subst hij
            rw [List.getElem?_set_self hilt] at hj
            injection Option.some.inj hj with he
            subst he
            refine ⟨by omega, ?_⟩
            show o + b ≤ o + b
            exact Nat.le_refl _
          · rw [List.getElem?_set_ne hij] at hj
            obtain ⟨h1, h2⟩ := hone j r hj
            refine ⟨h1, ?_⟩
            show r + b ≤ o + b
            omega
        · intro j k rj rk hjk hj hk
          by_cases hij : i = j
          · subst hij
            rw [List.getElem?_set_self hilt] at hj
            injection Option.some.inj hj with he
            subst he
            have hik : ¬ i = k := hjk
            rw [List.getElem?_set_ne hik] at hk
            obtain ⟨_, h2⟩ := hone k rk hk
            right
            omega
          · rw [List.getElem?_set_ne hij] at hj
            by_cases hik : i = k
            · subst hik
              rw [List.getElem?_set_self hilt] at hk
              injection Option.some.inj hk with he
              subst he
              obtain ⟨_, h2⟩ := hone j rj hj
              left
              omega
            · rw [List.getElem?_set_ne hik] at hk
              exact htwo j k rj rk hjk hj hk
      · rw [if_neg hc]
        refine ⟨by rw [List.length_set]; exact hlen, ?_, ?_, ?_, ?_⟩
        · intro j
          by_cases hj : i = j
          · subst hj
            rw [List.getElem?_set_self hilt]
            intro hcon
            exact thread_state.noConfusion (Option.some.inj hcon)
          · rw [List.getElem?_set_ne hj]
            exact hnf j
        · show st.cursor = c0 + b * dcount (st.threads.set i thread_state.idle)
          rw [dcount_set_nondone st.threads i (thread_state.read o) thread_state.idle hl rfl rfl]
          exact hcur
        · intro j r hj
          by_cases hij : i = j
          · subst hij
            rw [List.getElem?_set_self hilt] at hj
            exact thread_state.noConfusion (Option.some.inj hj)
          · rw [List.getElem?_set_ne hij] at hj
            exact hone j r hj
        · intro j k rj rk hjk hj hk
          by_cases hij : i = j
          · subst hij
            rw [List.getElem?_set_self hilt] at hj
            exact thread_state.noConfusion (Option.some.inj hj)
          · rw [List.getElem?_set_ne hij] at hj
            by_cases hik : i = k
            · subst hik
              rw [List.getElem?_set_self hilt] at hk
              exact thread_state.noConfusion (Option.some.inj hk)
            · rw [List.getElem?_set_ne hik] at hk
              exact htwo j k rj rk hjk hj hk
    | done r =>
      simp only [bump_step, hl]
      exact ⟨hlen, hnf, hcur, hone, htwo⟩
    | failed =>
      exact absurd hl (hnf i)

theorem bump_run_inv (NT b c0 endAddr : Nat) (hcap : c0 + NT * b ≤ endAddr) :
    ∀ (sched : List Nat) (st : bump_state), bump_inv NT b c0 st →
      bump_inv NT b c0 (bump_run endAddr b st sched) := by
  intro sched
  induction sched with
  | nil => intro st h; exact h
  | cons i rest ih =>
    intro st h
    exact ih (bump_step endAddr b st i) (bump_inv_step NT b c0 endAddr hcap st h i)

/-- C8: under any interleaving of `NT` concurrent arena-direct callers,
each reserving `b` bytes, with `c0 + NT*b` within the arena end, no
caller ever falls back to the heap (no bounds-check abort), any two
completed reservations `[r, r+b)` are non-overlapping and lie inside
`[c0, c0 + NT*b)`, and once every caller has completed, the cursor
equals the initial cursor plus `NT*b`. -/
theorem C8_concurrent_bump (NT b c0 endAddr : Nat) (sched : List Nat)
    (hcap : c0 + NT * b ≤ endAddr) :
    (∀ i : Nat, (bump_run endAddr b (bump_init NT c0) sched).threads[i]?
        ≠ some thread_state.failed) ∧
    (∀ (i j ri rj : Nat), i ≠ j →
        (bump_run endAddr b (bump_init NT c0) sched).threads[i]?
          = some (thread_state.done ri) →
        (bump_run endAddr b (bump_init NT c0) sched).threads[j]?
          = some (thread_state.done rj) →
        ri + b ≤ rj ∨ rj + b ≤ ri) ∧
    (∀ (i ri : Nat), (bump_run endAddr b (bump_init NT c0) sched).threads[i]?
        = some (thread_state.done ri) →
        c0 ≤ ri ∧ ri + b ≤ c0 + NT * b) ∧
    ((∀ t ∈ (bump_run endAddr b (bump_init NT c0) sched).threads, is_done t = true) →
        (bump_run endAddr b (bump_init NT c0) sched).cursor = c0 + NT * b) := by
  obtain ⟨hlen, hnf, hcur, hone, htwo⟩ :=
    bump_run_inv NT b c0 endAddr hcap sched (bump_init NT c0) (bump_inv_init NT b c0)
  refine ⟨hnf, htwo, ?_, ?_⟩
  · intro i ri h
    obtain ⟨h1, h2⟩ := hone i ri h
    refine ⟨h1, ?_⟩
    have hdle : dcount (bump_run endAddr b (bump_init NT c0) sched).threads ≤ NT := by
      have := List.length_filter_le is_done (bump_run endAddr b (bump_init NT c0) sched).threads
      unfold dcount
      omega
    have hmul : b * dcount (bump_run endAddr b (bump_init NT c0) sched).threads ≤ b * NT :=
      Nat.mul_le_mul_left b hdle
    have hcm : b * NT = NT * b := Nat.mul_comm b NT
    omega
  · intro hall
    rw [hcur, dcount_all_done _ hall, hlen, Nat.mul_comm]

theorem C8_concurrent_bump_witness :
    100 + 2 * 4 ≤ 108 ∧
    (bump_run 108 4 (bump_init 2 100) [0, 1, 1, 0, 0, 0]).threads
        = [thread_state.done 104, thread_state.done 100] ∧
    (bump_run 108 4 (bump_init 2 100) [0, 1, 1, 0, 0, 0]).cursor = 108 ∧
    (∀ (i j ri rj : Nat), i ≠ j →
        (bump_run 108 4 (bump_init 2 100) [0, 1, 1, 0, 0, 0]).threads[i]?
          = some (thread_state.done ri) →
        (bump_run 108 4 (bump_init 2 100) [0, 1, 1, 0, 0, 0]).threads[j]?
          = some (thread_state.done rj) →
        ri + 4 ≤ rj ∨ rj + 4 ≤ ri) :=
  ⟨by decide, by decide, by decide,
   (C8_concurrent_bump 2 4 100 108 [0, 1, 1, 0, 0, 0] (by decide)).2.1⟩
